import Mathlib

/-!
Verification of the backup lifecycle manager (`scripts/backup.py`).

The development shallowly embeds the three facets of the program the
claims are about:

* the retention engine (`RETENTION_RULES`, `prune_backups`), modelled
  over integer epoch seconds (`datetime.timestamp()` is an exact
  integer at second precision, `//` on it is floor division);
* the naming layer (`timestamp_now` / `parse_timestamp`), where
  filenames are lists of characters, `strftime("%Y%m%dT%H%M%SZ")`
  is zero-padded decimal formatting and `strptime` is embedded with
  CPython's actual field regexes, alternation priority and
  case-insensitive literals (`_strptime.TimeRE`); `\d` is modelled
  as an ASCII digit;
* the effectful operations (`create_backup`, `check_backup`),
  modelled as functions on an explicit store state recording the
  archive files and staging directories present under `BACKUP_ROOT`,
  with an oracle deciding which external capture commands succeed.
-/

namespace Backup

/-! ## Retention engine (`backup.py` lines 56-62, 237-260)

`RETENTION_RULES` is the list of `(ageLimit, bucketWidth)` tiers, in
seconds: `timedelta` values compare by their total seconds, and
`prune_backups` only uses `limit` in comparisons against `age` and
`interval.total_seconds()`. -/

/-- One stored backup as `prune_backups` sees it: a path and the
timestamp parsed from the filename, as epoch seconds. -/
structure BackupFile where
  path : String
  timestamp : Int
deriving DecidableEq, Repr

/-- `RETENTION_RULES` from `backup.py:56-62`, with durations in
seconds: 2h/15m, 1d/30m, 14d/1d, 30d/5d, unbounded/30d. -/
def RETENTION_RULES : List (Option Int × Int) :=
  [(some 7200, 900),
   (some 86400, 1800),
   (some 1209600, 86400),
   (some 2592000, 432000),
   (none, 2592000)]

/-- The `for idx, (limit, interval) in enumerate(RETENTION_RULES)`
loop body of `prune_backups`: the first rule whose limit is absent or
at least `age` wins; `break` stops the scan. -/
def findRule (age : Int) : List (Option Int × Int) → Nat → Option (Nat × Int)
  | [], _ => none
  | (limit, interval) :: rs, idx =>
    if (match limit with | none => true | some l => decide (age ≤ l)) then
      some (idx, interval)
    else
      findRule age rs (idx + 1)

/-- Tier classification of an archive of age `age`: index and bucket
width of the first applicable retention rule. -/
def ruleFor (age : Int) : Option (Nat × Int) := findRule age RETENTION_RULES 0

/-- `slot(timestamp, interval)` from `backup.py:242-243`:
`int(timestamp.timestamp() // interval.total_seconds())`, i.e. floor
division of the epoch seconds by the bucket width. -/
def slotOf (ts interval : Int) : Int := Int.fdiv ts interval

/-- The `(tierIndex, bucketKey)` pair a backup maps to (`slot_key` in
`prune_backups`), `none` if no retention rule applies (cannot happen:
the last rule is unbounded). -/
def keyOf (now : Int) (b : BackupFile) : Option (Nat × Int) :=
  (ruleFor (now - b.timestamp)).map fun r => (r.1, slotOf b.timestamp r.2)

/-- Lookup in the association list modelling the `keep_slots` dict. -/
def findSlot (k : Nat × Int) : List ((Nat × Int) × BackupFile) → Option BackupFile
  | [] => none
  | (k', b) :: rest => if k' = k then some b else findSlot k rest

/-- The first `for backup in backups` loop of `prune_backups`: walk the
backups in order, and record each backup under its `slot_key` unless
that key is already taken. -/
def buildSlots (now : Int) : List BackupFile → List ((Nat × Int) × BackupFile) →
    List ((Nat × Int) × BackupFile)
  | [], acc => acc
  | b :: bs, acc =>
    match keyOf now b with
    | none => buildSlots now bs acc
    | some k =>
      if (findSlot k acc).isSome then buildSlots now bs acc
      else buildSlots now bs ((k, b) :: acc)

/-- Final contents of the `keep_slots` dict. -/
def keepSlots (now : Int) (bs : List BackupFile) : List ((Nat × Int) × BackupFile) :=
  buildSlots now bs []

/-- The `keep_paths` set: paths of all bucket survivors. -/
def keepPaths (now : Int) (bs : List BackupFile) : List String :=
  (keepSlots now bs).map fun e => e.2.path

/-- The `removed` list of `prune_backups`: paths of all backups whose
path is not in `keep_paths` (these files are unlinked). -/
def removedPaths (now : Int) (bs : List BackupFile) : List String :=
  (bs.filter fun b => decide (b.path ∉ keepPaths now bs)).map fun b => b.path

/-- The backups that survive pruning: those whose path is in
`keep_paths` (the complement of the removed set). -/
def keptBackups (now : Int) (bs : List BackupFile) : List BackupFile :=
  bs.filter fun b => decide (b.path ∈ keepPaths now bs)

/-- The retention decision as a keep/remove partition of the input. -/
def pruneDecision (bs : List BackupFile) (now : Int) : List BackupFile × List String :=
  (keptBackups now bs, removedPaths now bs)

/-- Input ordered newest-first with (as in the store, where the
timestamp is embedded in the unique filename) pairwise distinct
timestamps. -/
def newestFirst (bs : List BackupFile) : Prop :=
  List.Pairwise (fun a c => c.timestamp < a.timestamp) bs

/-- Pairwise distinct paths, as holds for a directory listing. -/
def pathsNodup (bs : List BackupFile) : Prop :=
  (bs.map fun b => b.path).Nodup

/-! ### Retention-engine lemmas -/

/-- Closed form of the rule scan: the tier is determined by the first
satisfied age bound, in the fixed order of `RETENTION_RULES`. -/
lemma ruleFor_eq (age : Int) :
    ruleFor age = some
      (if age ≤ 7200 then (0, 900)
       else if age ≤ 86400 then (1, 1800)
       else if age ≤ 1209600 then (2, 86400)
       else if age ≤ 2592000 then (3, 432000)
       else (4, 2592000)) := by
  simp only [ruleFor, RETENTION_RULES, findRule]
  split_ifs <;> simp_all

/-- The rule scan always succeeds (the final rule is unbounded). -/
lemma keyOf_isSome (now : Int) (b : BackupFile) : ∃ k, keyOf now b = some k := by
  simp only [keyOf, ruleFor_eq, Option.map_some]
  exact ⟨_, rfl⟩

/-- Lookup after running the slot-filling loop: an existing binding is
kept, and a fresh key is bound to the first backup of the remaining
list that maps to it. -/
lemma findSlot_buildSlots (now : Int) (bs : List BackupFile)
    (acc : List ((Nat × Int) × BackupFile)) (k : Nat × Int) :
    findSlot k (buildSlots now bs acc) =
      (findSlot k acc).orElse
        (fun _ => bs.find? fun c => decide (keyOf now c = some k)) := by
  induction bs generalizing acc with
  | nil => simp [buildSlots, List.find?]
  | cons b bs ih =>
    simp only [buildSlots]
    rcases hb : keyOf now b with _ | k0
    · rw [ih]
      have : (fun c => decide (keyOf now c = some k)) b = false := by simp [hb]
      simp [List.find?, this]
    · by_cases hacc : (findSlot k0 acc).isSome
      · simp only [hacc, if_true, ih]
        by_cases hkk : k0 = k
        · subst hkk
          rcases Option.isSome_iff_exists.mp hacc with ⟨x, hx⟩
          simp [hx, Option.orElse]
        · have : (fun c => decide (keyOf now c = some k)) b = false := by
            simp [hb, hkk]
          simp [List.find?, this]
      · simp only [hacc, if_false, Bool.false_eq_true, ite_false, ih]
        by_cases hkk : k0 = k
        · subst hkk
          have h1 : findSlot k0 ((k0, b) :: acc) = some b := by simp [findSlot]
          have h2 : findSlot k0 acc = none := by
            cases h : findSlot k0 acc
            · rfl
            · simp [h] at hacc
          have : (fun c => decide (keyOf now c = some k0)) b = true := by simp [hb]
          simp [h1, h2, List.find?, this, Option.orElse]
        · have h1 : findSlot k ((k0, b) :: acc) = findSlot k acc := by
            simp [findSlot, hkk]
          have : (fun c => decide (keyOf now c = some k)) b = false := by
            simp [hb, hkk]
          simp [h1, List.find?, this]

/-- Membership in the slot table: `(k, b)` is recorded exactly when `k`
was not already bound and `b` is the first backup mapping to `k`. -/
lemma mem_buildSlots (now : Int) (bs : List BackupFile)
    (acc : List ((Nat × Int) × BackupFile)) (k : Nat × Int) (b : BackupFile) :
    (k, b) ∈ buildSlots now bs acc ↔
      (k, b) ∈ acc ∨
        (findSlot k acc = none ∧
          bs.find? (fun c => decide (keyOf now c = some k)) = some b) := by
  induction bs generalizing acc with
  | nil => simp [buildSlots, List.find?]
  | cons b0 bs ih =>
    simp only [buildSlots]
    rcases hb0 : keyOf now b0 with _ | k0
    · rw [ih]
      have : (fun c => decide (keyOf now c = some k)) b0 = false := by simp [hb0]
      simp [List.find?, this]
    · by_cases hacc : (findSlot k0 acc).isSome
      · simp only [hacc, if_true, ih]
        by_cases hkk : k0 = k
        · subst hkk
          rcases Option.isSome_iff_exists.mp hacc with ⟨x, hx⟩
          simp [hx, List.find?]
        · have : (fun c => decide (keyOf now c = some k)) b0 = false := by
            simp [hb0, hkk]
          simp [List.find?, this]
      · have haccn : findSlot k0 acc = none := by
          cases h : findSlot k0 acc
          · rfl
          · simp [h] at hacc
        simp only [hacc, if_false, Bool.false_eq_true, ite_false, ih]
        by_cases hkk : k0 = k
        · subst hkk
          have hfind : List.find? (fun c => decide (keyOf now c = some k0)) (b0 :: bs)
              = some b0 := by
            simp [List.find?, hb0]
          rw [hfind]
          constructor
          · rintro (h | ⟨h1, h2⟩)
            · rcases List.mem_cons.mp h with h | h
              · have hb : b = b0 := congrArg Prod.snd h
                subst hb
                exact Or.inr ⟨haccn, rfl⟩
              · exact Or.inl h
            · exact absurd h1 (by simp [findSlot])
          · rintro (h | ⟨h1, h2⟩)
            · exact Or.inl (List.mem_cons_of_mem _ h)
            · have hb : b0 = b := Option.some.inj h2
              subst hb
              exact Or.inl (List.mem_cons_self _ _)
        · have hfind : List.find? (fun c => decide (keyOf now c = some k)) (b0 :: bs)
              = List.find? (fun c => decide (keyOf now c = some k)) bs := by
            simp [List.find?, hb0, hkk]
          have h1 : findSlot k ((k0, b0) :: acc) = findSlot k acc := by
            simp [findSlot, hkk]
          rw [hfind, h1]
          constructor
          · rintro (h | h)
            · rcases List.mem_cons.mp h with h | h
              · exact absurd (congrArg Prod.fst h).symm hkk
              · exact Or.inl h
            · exact Or.inr h
          · rintro (h | h)
            · exact Or.inl (List.mem_cons_of_mem _ h)
            · exact Or.inr h

/-- Membership in `keep_slots` at the end of the first loop. -/
lemma mem_keepSlots (now : Int) (bs : List BackupFile) (k : Nat × Int) (b : BackupFile) :
    (k, b) ∈ keepSlots now bs ↔
      bs.find? (fun c => decide (keyOf now c = some k)) = some b := by
  rw [keepSlots, mem_buildSlots]
  simp [findSlot]

/-- A path is in `keep_paths` exactly when it is the path of some first
backup of some bucket. -/
lemma mem_keepPaths (now : Int) (bs : List BackupFile) (p : String) :
    p ∈ keepPaths now bs ↔
      ∃ k b, bs.find? (fun c => decide (keyOf now c = some k)) = some b ∧
        b.path = p := by
  simp only [keepPaths, List.mem_map]
  constructor
  · rintro ⟨⟨k, b⟩, hmem, hp⟩
    exact ⟨k, b, (mem_keepSlots now bs k b).mp hmem, hp⟩
  · rintro ⟨k, b, hfind, hp⟩
    exact ⟨(k, b), (mem_keepSlots now bs k b).mpr hfind, hp⟩

/-- In a newest-first list, the first backup of a bucket has the
latest timestamp among all backups of that bucket. -/
lemma find?_max_of_newestFirst (now : Int) (bs : List BackupFile)
    (hs : newestFirst bs) (k : Nat × Int) (b : BackupFile)
    (hfind : bs.find? (fun c => decide (keyOf now c = some k)) = some b) :
    ∀ c ∈ bs, keyOf now c = some k → c.timestamp ≤ b.timestamp := by
  induction bs with
  | nil => simp at hfind
  | cons a tl ih =>
    rcases List.pairwise_cons.mp hs with ⟨ha, htl⟩
    by_cases hak : keyOf now a = some k
    · have hfa : List.find? (fun c => decide (keyOf now c = some k)) (a :: tl)
          = some a := by simp [List.find?, hak]
      have hba : b = a := Option.some.inj (hfa ▸ hfind).symm
      subst hba
      intro c hc _
      rcases List.mem_cons.mp hc with rfl | hc
      · exact le_refl _
      · exact le_of_lt (ha c hc)
    · have hfa : List.find? (fun c => decide (keyOf now c = some k)) (a :: tl)
          = List.find? (fun c => decide (keyOf now c = some k)) tl := by
        simp [List.find?, hak]
      intro c hc hck
      rcases List.mem_cons.mp hc with rfl | hc
      · exact absurd hck hak
      · exact ih htl (hfa ▸ hfind) c hc hck

/-- In a newest-first list, a backup with the latest timestamp of its
bucket is the first backup of that bucket. -/
lemma find?_of_max (now : Int) (bs : List BackupFile)
    (hs : newestFirst bs) (k : Nat × Int) (b : BackupFile) (hb : b ∈ bs)
    (hkb : keyOf now b = some k)
    (hmax : ∀ c ∈ bs, keyOf now c = some k → c.timestamp ≤ b.timestamp) :
    bs.find? (fun c => decide (keyOf now c = some k)) = some b := by
  induction bs with
  | nil => simp at hb
  | cons a tl ih =>
    rcases List.pairwise_cons.mp hs with ⟨ha, htl⟩
    by_cases hak : keyOf now a = some k
    · have hfa : List.find? (fun c => decide (keyOf now c = some k)) (a :: tl)
          = some a := by simp [List.find?, hak]
      rcases List.mem_cons.mp hb with rfl | hbtl
      · exact hfa
      · exact absurd (hmax a (List.mem_cons_self _ _) hak)
          (not_le.mpr (ha b hbtl))
    · have hfa : List.find? (fun c => decide (keyOf now c = some k)) (a :: tl)
          = List.find? (fun c => decide (keyOf now c = some k)) tl := by
        simp [List.find?, hak]
      rcases List.mem_cons.mp hb with rfl | hbtl
      · exact absurd hkb hak
      · exact hfa ▸ ih htl hbtl
          (fun c hc hck => hmax c (List.mem_cons_of_mem _ hc) hck)

/-- Membership in the `removed` list of `prune_backups`. -/
lemma mem_removedPaths (now : Int) (bs : List BackupFile) (p : String) :
    p ∈ removedPaths now bs ↔
      ∃ c ∈ bs, c.path = p ∧ c.path ∉ keepPaths now bs := by
  simp only [removedPaths, List.mem_map, List.mem_filter]
  constructor
  · rintro ⟨c, ⟨hc, hnot⟩, hp⟩
    exact ⟨c, hc, hp, by simpa using hnot⟩
  · rintro ⟨c, hc, hp, hnot⟩
    exact ⟨c, ⟨hc, by simpa using hnot⟩, hp⟩

/-- A backup of the input is kept exactly when its path survives. -/
lemma mem_keptBackups (now : Int) (bs : List BackupFile) (b : BackupFile) :
    b ∈ keptBackups now bs ↔ b ∈ bs ∧ b.path ∈ keepPaths now bs := by
  simp [keptBackups, List.mem_filter]

/-! ### Claim theorems about the retention engine -/

/-- C4: for every archive age, the retention engine classifies the
archive into exactly the first tier, in the fixed order
(2h,15m), (1d,30m), (14d,1d), (30d,5d), (unbounded,30d), whose age
limit is absent or at least the age; an archive older than all finite
age limits lands in the unbounded tier (index 4, 30-day buckets). -/
theorem retention_first_tier (age : Int) :
    ruleFor age = some
      (if age ≤ 7200 then (0, 900)
       else if age ≤ 86400 then (1, 1800)
       else if age ≤ 1209600 then (2, 86400)
       else if age ≤ 2592000 then (3, 432000)
       else (4, 2592000)) :=
  ruleFor_eq age

/-- C9: the retention decision is a deterministic function of the
archive sequence and the instant `now`: two runs of the decision on
the same inputs yield identical keep/remove partitions. In the
embedding `prune_backups` is a pure function of `(backups, now)` — it
consults no other state, and its output does not depend on the
iteration order of the `keep_paths` set or `keep_slots` dict. -/
theorem pruneDecision_deterministic (bs₁ bs₂ : List BackupFile) (now₁ now₂ : Int)
    (hb : bs₁ = bs₂) (hn : now₁ = now₂) :
    pruneDecision bs₁ now₁ = pruneDecision bs₂ now₂ := by
  subst hb
  subst hn
  rfl

/-- Witness for `pruneDecision_deterministic` at a concrete store. -/
theorem pruneDecision_deterministic_witness :
    pruneDecision [⟨"a", 100⟩] 200 = pruneDecision [⟨"a", 100⟩] 200 :=
  pruneDecision_deterministic [⟨"a", 100⟩] [⟨"a", 100⟩] 200 200 rfl rfl

/-- C3: for every non-empty newest-first input, the newest archive
(the head) is kept and is never marked for removal; in particular the
keep set is non-empty. -/
theorem prune_newest_kept (b : BackupFile) (rest : List BackupFile) (now : Int)
    (hs : newestFirst (b :: rest)) :
    b ∈ keptBackups now (b :: rest) ∧
      b.path ∉ removedPaths now (b :: rest) ∧
      keptBackups now (b :: rest) ≠ [] := by
  obtain ⟨k, hk⟩ := keyOf_isSome now b
  have hfind : (b :: rest).find? (fun c => decide (keyOf now c = some k)) = some b := by
    simp [List.find?, hk]
  have hkeep : b.path ∈ keepPaths now (b :: rest) :=
    (mem_keepPaths now (b :: rest) b.path).mpr ⟨k, b, hfind, rfl⟩
  have hkept : b ∈ keptBackups now (b :: rest) :=
    (mem_keptBackups now (b :: rest) b).mpr ⟨List.mem_cons_self _ _, hkeep⟩
  refine ⟨hkept, ?_, ?_⟩
  · intro hrem
    rcases (mem_removedPaths now (b :: rest) b.path).mp hrem with ⟨c, _, hcp, hcnot⟩
    exact hcnot (hcp ▸ hkeep)
  · intro h
    rw [h] at hkept
    simp at hkept

/-- Witness for `prune_newest_kept`: two archives 100 s apart, the
newer one survives. -/
theorem prune_newest_kept_witness :
    (⟨"new", 1000⟩ : BackupFile) ∈ keptBackups 1200 [⟨"new", 1000⟩, ⟨"old", 900⟩] ∧
      ("new" : String) ∉ removedPaths 1200 [⟨"new", 1000⟩, ⟨"old", 900⟩] ∧
      keptBackups 1200 [⟨"new", 1000⟩, ⟨"old", 900⟩] ≠ [] :=
  prune_newest_kept ⟨"new", 1000⟩ [⟨"old", 900⟩] 1200
    (by simp [newestFirst])

/-- C2: for every newest-first input with distinct paths and every
`(tier, bucket)` pair, the decision keeps exactly the archive with the
latest timestamp among the archives mapped to that pair and marks
every other archive of the pair for removal. -/
theorem prune_bucket_survivor (bs : List BackupFile) (now : Int)
    (hs : newestFirst bs) (hp : pathsNodup bs)
    (b : BackupFile) (hb : b ∈ bs) (k : Nat × Int) (hk : keyOf now b = some k) :
    (b ∈ keptBackups now bs ↔
        ∀ c ∈ bs, keyOf now c = some k → c.timestamp ≤ b.timestamp) ∧
      (b ∈ keptBackups now bs → b.path ∉ removedPaths now bs) ∧
      (b ∉ keptBackups now bs → b.path ∈ removedPaths now bs) := by
  have hinj : ∀ x ∈ bs, ∀ y ∈ bs, x.path = y.path → x = y :=
    fun x hx y hy hxy => List.inj_on_of_nodup_map hp hx hy hxy
  have hkeep : b.path ∈ keepPaths now bs ↔
      bs.find? (fun c => decide (keyOf now c = some k)) = some b := by
    rw [mem_keepPaths]
    constructor
    · rintro ⟨k', b', hfind', hpath⟩
      have hb' : b' ∈ bs := List.mem_of_find?_eq_some hfind'
      have hbb : b' = b := hinj b' hb' b hb hpath
      subst hbb
      have hk' : keyOf now b' = some k' := by
        have := List.find?_some hfind'
        simpa using this
      have : k' = k := Option.some.inj (hk' ▸ hk)
      exact this ▸ hfind'
    · intro hfind
      exact ⟨k, b, hfind, rfl⟩
  constructor
  · rw [mem_keptBackups, hkeep]
    constructor
    · rintro ⟨_, hfind⟩
      exact find?_max_of_newestFirst now bs hs k b hfind
    · intro hmax
      exact ⟨hb, find?_of_max now bs hs k b hb hk hmax⟩
  · constructor
    · intro hkept hrem
      rcases (mem_removedPaths now bs b.path).mp hrem with ⟨c, _, hcp, hcnot⟩
      exact hcnot (hcp ▸ ((mem_keptBackups now bs b).mp hkept).2)
    · intro hnot
      refine (mem_removedPaths now bs b.path).mpr ⟨b, hb, rfl, ?_⟩
      intro hin
      exact hnot ((mem_keptBackups now bs b).mpr ⟨hb, hin⟩)

/-- Witness for `prune_bucket_survivor`: two archives 50 s apart share
the 15-minute bucket of tier 0; the newer one is the survivor. -/
theorem prune_bucket_survivor_witness :
    ((⟨"new", 100⟩ : BackupFile) ∈ keptBackups 200 [⟨"new", 100⟩, ⟨"old", 50⟩] ↔
        ∀ c ∈ [(⟨"new", 100⟩ : BackupFile), ⟨"old", 50⟩],
          keyOf 200 c = some (0, 0) → c.timestamp ≤ (100 : Int)) ∧
      ((⟨"new", 100⟩ : BackupFile) ∈ keptBackups 200 [⟨"new", 100⟩, ⟨"old", 50⟩] →
        ("new" : String) ∉ removedPaths 200 [⟨"new", 100⟩, ⟨"old", 50⟩]) ∧
      ((⟨"new", 100⟩ : BackupFile) ∉ keptBackups 200 [⟨"new", 100⟩, ⟨"old", 50⟩] →
        ("new" : String) ∈ removedPaths 200 [⟨"new", 100⟩, ⟨"old", 50⟩]) :=
  prune_bucket_survivor [⟨"new", 100⟩, ⟨"old", 50⟩] 200
    (by simp [newestFirst]) (by simp [pathsNodup])
    ⟨"new", 100⟩ (by simp) (0, 0) (by decide)

/-! ## Naming layer (`backup.py` lines 79-80, 183-203)

File names are lists of characters. `timestamp_now` formats the
current UTC time with `strftime("%Y%m%dT%H%M%SZ")`; `parse_timestamp`
strips the `.tar.zst` suffix and the `art-institut-backup-` stem and
feeds the rest to `strptime` with the same format. `strptime` is
embedded following CPython `_strptime.TimeRE`: each field is a regex
alternation tried in priority order with backtracking
(`Y: \d\d\d\d`, `m: 1[0-2]|0[1-9]|[1-9]`,
`d: 3[01]|[12]\d|0[1-9]|[1-9]`, `H: 2[0-3]|[0-1]\d|\d`,
`M: [0-5]\d|\d`, `S: 6[0-1]|[0-5]\d|\d`), literals are matched
case-insensitively (`re.IGNORECASE`), the match must consume the whole
string, and the `datetime` constructor then validates calendar ranges
(raising, hence `None`, on e.g. Feb 30 or second 60). `\d` is
modelled as an ASCII digit. -/

/-- A file name, as a list of characters. -/
abbrev Name := List Char

/-- `BACKUP_PREFIX + '-'` (`backup.py:39`). -/
def headTag : Name := "art-institut-backup-".toList

/-- The fixed archive extension `.tar.zst`. -/
def extTag : Name := ".tar.zst".toList

/-- A `datetime.datetime` value at second precision. -/
structure DateTime where
  year : Nat
  month : Nat
  day : Nat
  hour : Nat
  minute : Nat
  second : Nat
deriving DecidableEq, Repr

/-- Gregorian leap-year rule, as `datetime` uses. -/
def isLeap (y : Nat) : Bool := (y % 4 == 0 && y % 100 != 0) || y % 400 == 0

/-- Days in a month, as `datetime` uses. -/
def daysInMonth (y m : Nat) : Nat :=
  if m = 2 then (if isLeap y then 29 else 28)
  else if m = 4 ∨ m = 6 ∨ m = 9 ∨ m = 11 then 30
  else 31

/-- The validation performed by the `datetime` constructor
(`MINYEAR = 1`, `MAXYEAR = 9999`, calendar day ranges, no leap
seconds). -/
def validDate (t : DateTime) : Bool :=
  decide (1 ≤ t.year ∧ t.year ≤ 9999 ∧ 1 ≤ t.month ∧ t.month ≤ 12 ∧
    1 ≤ t.day ∧ t.day ≤ daysInMonth t.year t.month ∧
    t.hour ≤ 23 ∧ t.minute ≤ 59 ∧ t.second ≤ 59)

/-- Two-digit zero-padded decimal (strftime `%m`, `%d`, `%H`, `%M`,
`%S` on values below 100). -/
def pad2 (n : Nat) : Name := [Nat.digitChar (n / 10), Nat.digitChar (n % 10)]

/-- Four-digit decimal (strftime `%Y` on four-digit years). -/
def pad4 (n : Nat) : Name :=
  [Nat.digitChar (n / 1000), Nat.digitChar (n / 100 % 10),
   Nat.digitChar (n / 10 % 10), Nat.digitChar (n % 10)]

/-- `strftime("%Y%m%dT%H%M%SZ")` (`timestamp_now`, `backup.py:79-80`). -/
def formatStamp (t : DateTime) : Name :=
  pad4 t.year ++ pad2 t.month ++ pad2 t.day ++ 'T' ::
    (pad2 t.hour ++ pad2 t.minute ++ pad2 t.second ++ ['Z'])

/-- The archive file name `f"{BACKUP_PREFIX}-{timestamp}.tar.zst"`
(`backup.py:175`). -/
def archiveFileName (ts : Name) : Name := headTag ++ ts ++ extTag

/-- ASCII digit test (the `\d` of the strptime regexes). -/
def isDig (c : Char) : Bool := decide ('0' ≤ c ∧ c ≤ '9')

/-- Numeric value of a digit character. -/
def dval (c : Char) : Nat := c.toNat - '0'.toNat

/-- `%Y`: exactly four digits (`TimeRE`). -/
def exact4digits : Name → Option (Nat × Name)
  | c1 :: c2 :: c3 :: c4 :: rest =>
    if isDig c1 && isDig c2 && isDig c3 && isDig c4 then
      some (dval c1 * 1000 + dval c2 * 100 + dval c3 * 10 + dval c4, rest)
    else none
  | _ => none

/-- `%m` alternatives `1[0-2]|0[1-9]|[1-9]`, in priority order. -/
def mAlts (cs : Name) : List (Nat × Name) :=
  (match cs with
   | c1 :: c2 :: rest =>
     (if c1 = '1' ∧ '0' ≤ c2 ∧ c2 ≤ '2' then [(10 + dval c2, rest)] else []) ++
     (if c1 = '0' ∧ '1' ≤ c2 ∧ c2 ≤ '9' then [(dval c2, rest)] else [])
   | _ => []) ++
  (match cs with
   | c1 :: rest => if '1' ≤ c1 ∧ c1 ≤ '9' then [(dval c1, rest)] else []
   | _ => [])

/-- `%d` alternatives `3[0-1]|[1-2]\d|0[1-9]|[1-9]| [1-9]`, in
priority order (the last one allows a leading blank). -/
def dAlts (cs : Name) : List (Nat × Name) :=
  (match cs with
   | c1 :: c2 :: rest =>
     (if c1 = '3' ∧ (c2 = '0' ∨ c2 = '1') then [(30 + dval c2, rest)] else []) ++
     (if ('1' ≤ c1 ∧ c1 ≤ '2') ∧ isDig c2 = true then
       [(dval c1 * 10 + dval c2, rest)] else [])  ++
     (if c1 = '0' ∧ '1' ≤ c2 ∧ c2 ≤ '9' then [(dval c2, rest)] else [])
   | _ => []) ++
  (match cs with
   | c1 :: rest => if '1' ≤ c1 ∧ c1 ≤ '9' then [(dval c1, rest)] else []
   | _ => []) ++
  (match cs with
   | c1 :: c2 :: rest =>
     if c1 = ' ' ∧ '1' ≤ c2 ∧ c2 ≤ '9' then [(dval c2, rest)] else []
   | _ => [])

/-- `%H` alternatives `2[0-3]|[0-1]\d|\d`, in priority order. -/
def hAlts (cs : Name) : List (Nat × Name) :=
  (match cs with
   | c1 :: c2 :: rest =>
     (if c1 = '2' ∧ '0' ≤ c2 ∧ c2 ≤ '3' then [(20 + dval c2, rest)] else []) ++
     (if (c1 = '0' ∨ c1 = '1') ∧ isDig c2 = true then
       [(dval c1 * 10 + dval c2, rest)] else [])
   | _ => []) ++
  (match cs with
   | c1 :: rest => if isDig c1 then [(dval c1, rest)] else []
   | _ => [])

/-- `%M` alternatives `[0-5]\d|\d`, in priority order. -/
def minAlts (cs : Name) : List (Nat × Name) :=
  (match cs with
   | c1 :: c2 :: rest =>
     if ('0' ≤ c1 ∧ c1 ≤ '5') ∧ isDig c2 = true then
       [(dval c1 * 10 + dval c2, rest)] else []
   | _ => []) ++
  (match cs with
   | c1 :: rest => if isDig c1 then [(dval c1, rest)] else []
   | _ => [])

/-- `%S` alternatives `6[0-1]|[0-5]\d|\d`, in priority order. -/
def sAlts (cs : Name) : List (Nat × Name) :=
  (match cs with
   | c1 :: c2 :: rest =>
     (if c1 = '6' ∧ (c2 = '0' ∨ c2 = '1') then [(60 + dval c2, rest)] else []) ++
     (if ('0' ≤ c1 ∧ c1 ≤ '5') ∧ isDig c2 = true then
       [(dval c1 * 10 + dval c2, rest)] else [])
   | _ => []) ++
  (match cs with
   | c1 :: rest => if isDig c1 then [(dval c1, rest)] else []
   | _ => [])

/-- Backtracking over an alternative list: return the first
continuation that succeeds, in priority order (regex alternation). -/
def firstSome : List α → (α → Option β) → Option β
  | [], _ => none
  | a :: as, f =>
    match f a with
    | some b => some b
    | none => firstSome as f

/-- The literal `T` of the format, case-insensitive
(`re.IGNORECASE`). -/
def litT : Name → Option Name
  | c :: rest => if c = 'T' ∨ c = 't' then some rest else none
  | [] => none

/-- The literal `Z` of the format, case-insensitive. -/
def litZ : Name → Option Name
  | c :: rest => if c = 'Z' ∨ c = 'z' then some rest else none
  | [] => none

/-- The compiled `%Y%m%dT%H%M%SZ` regex applied at the start of the
string: first full-pattern match in alternation priority order,
returning the captured fields and the unconsumed remainder. -/
def stampMatch (cs : Name) : Option (DateTime × Name) :=
  (exact4digits cs).bind fun yc =>
  firstSome (mAlts yc.2) fun mc =>
  firstSome (dAlts mc.2) fun dc =>
  (litT dc.2).bind fun csT =>
  firstSome (hAlts csT) fun hc =>
  firstSome (minAlts hc.2) fun mic =>
  firstSome (sAlts mic.2) fun sc =>
  (litZ sc.2).map fun rest => (⟨yc.1, mc.1, dc.1, hc.1, mic.1, sc.1⟩, rest)

/-- `datetime.strptime(stamp, "%Y%m%dT%H%M%SZ")` wrapped in the
`try/except ValueError` of `parse_timestamp`: the regex must match,
the match must consume the whole string (`unconverted data remains`),
and the `datetime` constructor must accept the fields. -/
def parseStamp (cs : Name) : Option DateTime :=
  match stampMatch cs with
  | some (t, []) => if validDate t then some t else none
  | _ => none

/-- Strip a trailing `.tar.zst` (`name.endswith('.tar.zst')` then
`name[:-8]`, `backup.py:185-186`). -/
def dropExt (nm : Name) : Name :=
  if nm.drop (nm.length - 8) = extTag then nm.take (nm.length - 8) else nm

/-- `parse_timestamp` (`backup.py:183-193`): strip the extension,
require the `art-institut-backup-` stem, parse the rest as a
timestamp; `None` on any failure. -/
def parse_timestamp (nm : Name) : Option DateTime :=
  if (dropExt nm).take 20 = headTag then parseStamp ((dropExt nm).drop 20) else none

/-- The glob `art-institut-backup-*.tar.zst` used by `list_backups`
(`backup.py:198`): stem, then any (possibly empty) run of characters,
then the extension. -/
def globOk (nm : Name) : Bool :=
  decide (nm.take 20 = headTag ∧ nm.drop (nm.length - 8) = extTag ∧ 28 ≤ nm.length)

/-- Strict lexicographic comparison of `datetime` values (how Python
compares the sort keys in `list_backups`). -/
def dtLt (a b : DateTime) : Bool :=
  decide (a.year < b.year ∨ (a.year = b.year ∧ (a.month < b.month ∨ (a.month = b.month ∧
    (a.day < b.day ∨ (a.day = b.day ∧ (a.hour < b.hour ∨ (a.hour = b.hour ∧
    (a.minute < b.minute ∨ (a.minute = b.minute ∧ a.second < b.second))))))))))

/-- Stable insertion in descending timestamp order. -/
def insertDesc (e : Name × DateTime) : List (Name × DateTime) → List (Name × DateTime)
  | [] => [e]
  | c :: cs => if dtLt c.2 e.2 then e :: c :: cs else c :: insertDesc e cs

/-- `backups.sort(key=lambda b: b.timestamp, reverse=True)`. -/
def sortDesc (l : List (Name × DateTime)) : List (Name × DateTime) :=
  l.foldl (fun acc e => insertDesc e acc) []

/-- `list_backups` (`backup.py:196-203`) over the names present in the
store directory: keep the glob matches whose timestamp parses, sort
newest-first. -/
def list_backups (names : List Name) : List (Name × DateTime) :=
  sortDesc (names.filterMap fun nm =>
    if globOk nm then (parse_timestamp nm).map fun t => (nm, t) else none)

/-- Output order of `list_backups`: each entry is not older than any
later entry. -/
def sortedDesc (l : List (Name × DateTime)) : Prop :=
  List.Pairwise (fun a c => dtLt a.2 c.2 = false) l

/-! ### Round-trip lemmas -/

/-- A decimal digit formats to a digit character of the same value. -/
lemma digit_facts : ∀ d : Nat, d < 10 →
    isDig (Nat.digitChar d) = true ∧ dval (Nat.digitChar d) = d := by decide

/-- Four-digit years round-trip through `%Y`. -/
lemma exact4digits_pad4 (y : Nat) (h1 : 1000 ≤ y) (h2 : y ≤ 9999) (rest : Name) :
    exact4digits (pad4 y ++ rest) = some (y, rest) := by
  have d1 := digit_facts (y / 1000) (by omega)
  have d2 := digit_facts (y / 100 % 10) (by omega)
  have d3 := digit_facts (y / 10 % 10) (by omega)
  have d4 := digit_facts (y % 10) (by omega)
  have hval : dval (Nat.digitChar (y / 1000)) * 1000 +
      dval (Nat.digitChar (y / 100 % 10)) * 100 +
      dval (Nat.digitChar (y / 10 % 10)) * 10 +
      dval (Nat.digitChar (y % 10)) = y := by
    rw [d1.2, d2.2, d3.2, d4.2]
    omega
  simp [pad4, exact4digits, d1.1, d2.1, d3.1, d4.1, hval]

/-- Backtracking returns the head alternative when its continuation
succeeds. -/
lemma firstSome_cons_some {α β : Type} (a : α) (l : List α) (f : α → Option β)
    (b : β) (h : f a = some b) : firstSome (a :: l) f = some b := by
  simp [firstSome, h]

/-- A canonical two-digit month is the top-priority `%m`
alternative. -/
lemma mAlts_canon (v : Nat) (h1 : 1 ≤ v) (h2 : v ≤ 12) (rest : Name) :
    ∃ tl, mAlts (pad2 v ++ rest) = (v, rest) :: tl := by
  interval_cases v <;> exact ⟨_, rfl⟩

/-- A canonical two-digit day is the top-priority `%d` alternative. -/
lemma dAlts_canon (v : Nat) (h1 : 1 ≤ v) (h2 : v ≤ 31) (rest : Name) :
    ∃ tl, dAlts (pad2 v ++ rest) = (v, rest) :: tl := by
  interval_cases v <;> exact ⟨_, rfl⟩

/-- A canonical two-digit hour is the top-priority `%H` alternative. -/
lemma hAlts_canon (v : Nat) (h2 : v ≤ 23) (rest : Name) :
    ∃ tl, hAlts (pad2 v ++ rest) = (v, rest) :: tl := by
  interval_cases v <;> exact ⟨_, rfl⟩

/-- A canonical two-digit minute is the top-priority `%M`
alternative. -/
lemma minAlts_canon (v : Nat) (h2 : v ≤ 59) (rest : Name) :
    ∃ tl, minAlts (pad2 v ++ rest) = (v, rest) :: tl := by
  interval_cases v <;> exact ⟨_, rfl⟩

/-- A canonical two-digit second is the top-priority `%S`
alternative. -/
lemma sAlts_canon (v : Nat) (h2 : v ≤ 59) (rest : Name) :
    ∃ tl, sAlts (pad2 v ++ rest) = (v, rest) :: tl := by
  interval_cases v <;> exact ⟨_, rfl⟩

/-- `daysInMonth` never exceeds 31. -/
lemma daysInMonth_le (y m : Nat) : daysInMonth y m ≤ 31 := by
  unfold daysInMonth
  split_ifs <;> omega

/-- The literal `T` consumes an uppercase `T`. -/
lemma litT_cons (cs : Name) : litT ( 'T' :: cs) = some cs := by simp [litT]

/-- The literal `Z` consumes an uppercase `Z`. -/
lemma litZ_cons (cs : Name) : litZ ( 'Z' :: cs) = some cs := by simp [litZ]

/-- Backtracking through `%m` resolves a canonical month directly. -/
lemma firstSome_mAlts {β : Type} (v : Nat) (h1 : 1 ≤ v) (h2 : v ≤ 12)
    (rest : Name) (f : Nat × Name → Option β) (b : β)
    (hf : f (v, rest) = some b) :
    firstSome (mAlts (pad2 v ++ rest)) f = some b := by
  obtain ⟨tl, h⟩ := mAlts_canon v h1 h2 rest
  rw [h]
  exact firstSome_cons_some _ _ _ _ hf

/-- Backtracking through `%d` resolves a canonical day directly. -/
lemma firstSome_dAlts {β : Type} (v : Nat) (h1 : 1 ≤ v) (h2 : v ≤ 31)
    (rest : Name) (f : Nat × Name → Option β) (b : β)
    (hf : f (v, rest) = some b) :
    firstSome (dAlts (pad2 v ++ rest)) f = some b := by
  obtain ⟨tl, h⟩ := dAlts_canon v h1 h2 rest
  rw [h]
  exact firstSome_cons_some _ _ _ _ hf

/-- Backtracking through `%H` resolves a canonical hour directly. -/
lemma firstSome_hAlts {β : Type} (v : Nat) (h2 : v ≤ 23)
    (rest : Name) (f : Nat × Name → Option β) (b : β)
    (hf : f (v, rest) = some b) :
    firstSome (hAlts (pad2 v ++ rest)) f = some b := by
  obtain ⟨tl, h⟩ := hAlts_canon v h2 rest
  rw [h]
  exact firstSome_cons_some _ _ _ _ hf

/-- Backtracking through `%M` resolves a canonical minute directly. -/
lemma firstSome_minAlts {β : Type} (v : Nat) (h2 : v ≤ 59)
    (rest : Name) (f : Nat × Name → Option β) (b : β)
    (hf : f (v, rest) = some b) :
    firstSome (minAlts (pad2 v ++ rest)) f = some b := by
  obtain ⟨tl, h⟩ := minAlts_canon v h2 rest
  rw [h]
  exact firstSome_cons_some _ _ _ _ hf

/-- Backtracking through `%S` resolves a canonical second directly. -/
lemma firstSome_sAlts {β : Type} (v : Nat) (h2 : v ≤ 59)
    (rest : Name) (f : Nat × Name → Option β) (b : β)
    (hf : f (v, rest) = some b) :
    firstSome (sAlts (pad2 v ++ rest)) f = some b := by
  obtain ⟨tl, h⟩ := sAlts_canon v h2 rest
  rw [h]
  exact firstSome_cons_some _ _ _ _ hf

/-- The regex consumes exactly a canonically formatted stamp, in the
top-priority alternation branch, recovering every field. -/
lemma stampMatch_format (t : DateTime) (hv : validDate t = true)
    (h4 : 1000 ≤ t.year) (rest : Name) :
    stampMatch (formatStamp t ++ rest) = some (t, rest) := by
  have hb := of_decide_eq_true hv
  obtain ⟨hy1, hy2, hm1, hm2, hd1, hd2, hh, hmi, hs⟩ := hb
  have hd31 : t.day ≤ 31 := le_trans hd2 (daysInMonth_le _ _)
  have hfmt : formatStamp t ++ rest =
      pad4 t.year ++ (pad2 t.month ++ (pad2 t.day ++ 'T' ::
        (pad2 t.hour ++ (pad2 t.minute ++ (pad2 t.second ++ 'Z' :: rest))))) := by
    simp [formatStamp, List.append_assoc]
  rw [hfmt, stampMatch, exact4digits_pad4 t.year h4 hy2]
  simp only [Option.some_bind]
  refine firstSome_mAlts t.month hm1 hm2 _ _ _ ?_
  simp only
  refine firstSome_dAlts t.day hd1 hd31 _ _ _ ?_
  simp only [litT_cons, Option.some_bind]
  refine firstSome_hAlts t.hour hh _ _ _ ?_
  simp only
  refine firstSome_minAlts t.minute hmi _ _ _ ?_
  simp only
  refine firstSome_sAlts t.second hs _ _ _ ?_
  simp only [litZ_cons, Option.map_some]
  rfl

/-- The formatted stamp has the fixed length 16. -/
lemma formatStamp_length (t : DateTime) : (formatStamp t).length = 16 := by
  simp [formatStamp, pad4, pad2]

/-- `headTag` has length 20. -/
lemma headTag_length : headTag.length = 20 := rfl

/-- `extTag` has length 8. -/
lemma extTag_length : extTag.length = 8 := rfl

/-- `parseStamp` inverts `formatStamp` on valid four-digit-year
times. -/
lemma parseStamp_format (t : DateTime) (hv : validDate t = true)
    (h4 : 1000 ≤ t.year) : parseStamp (formatStamp t) = some t := by
  have h := stampMatch_format t hv h4 []
  rw [List.append_nil] at h
  simp [parseStamp, h, hv]

/-! ### Claim theorems about naming -/

/-- C7: for every timestamp at second precision in the `strftime`
domain of `timestamp_now` (a valid `datetime` with a four-digit
year), formatting it into an archive filename with the fixed stem and
extension and parsing the filename back recovers exactly the
timestamp. -/
theorem naming_round_trip (t : DateTime) (hv : validDate t = true)
    (h4 : 1000 ≤ t.year) :
    parse_timestamp (archiveFileName (formatStamp t)) = some t := by
  have hlen36 : (headTag ++ formatStamp t).length = 36 := by
    simp [formatStamp_length, headTag_length]
  have hname : archiveFileName (formatStamp t) =
      (headTag ++ formatStamp t) ++ extTag := by
    simp [archiveFileName, List.append_assoc]
  have hlen : (archiveFileName (formatStamp t)).length = 44 := by
    rw [hname]
    simp [formatStamp_length, headTag_length, extTag_length]
  have hdrop : (archiveFileName (formatStamp t)).drop
      ((archiveFileName (formatStamp t)).length - 8) = extTag := by
    rw [hlen, hname]
    norm_num
    rw [show (36 : Nat) = (headTag ++ formatStamp t).length from hlen36.symm]
    exact List.drop_left _ _
  have hde : dropExt (archiveFileName (formatStamp t)) =
      headTag ++ formatStamp t := by
    rw [dropExt, if_pos hdrop, hlen, hname]
    norm_num
    rw [show (36 : Nat) = (headTag ++ formatStamp t).length from hlen36.symm]
    exact List.take_left _ _
  have htake : (headTag ++ formatStamp t).take 20 = headTag := by
    have h := List.take_left headTag (formatStamp t)
    rwa [headTag_length] at h
  have hdrop20 : (headTag ++ formatStamp t).drop 20 = formatStamp t := by
    have h := List.drop_left headTag (formatStamp t)
    rwa [headTag_length] at h
  rw [parse_timestamp, hde, if_pos htake, hdrop20]
  exact parseStamp_format t hv h4

/-- Witness for `naming_round_trip` at 2025-10-12 13:59:59. -/
theorem naming_round_trip_witness :
    validDate ⟨2025, 10, 12, 13, 59, 59⟩ = true ∧
      1000 ≤ (2025 : Nat) ∧
      parse_timestamp (archiveFileName (formatStamp ⟨2025, 10, 12, 13, 59, 59⟩)) =
        some ⟨2025, 10, 12, 13, 59, 59⟩ :=
  ⟨by decide, by decide,
    naming_round_trip ⟨2025, 10, 12, 13, 59, 59⟩ (by decide) (by decide)⟩

/-- C10: `parse_timestamp` is total (it returns an optional value,
never an exception): a name without the fixed stem yields `None`, a
stamp the strptime regex rejects yields `None`, and a returned
timestamp comes only from a stamp the regex matched in full, with
fields accepted by the `datetime` constructor. -/
theorem parse_timestamp_total (nm : Name) :
    (¬ (dropExt nm).take 20 = headTag → parse_timestamp nm = none) ∧
      (stampMatch ((dropExt nm).drop 20) = none → parse_timestamp nm = none) ∧
      (∀ t, parse_timestamp nm = some t →
        validDate t = true ∧
          stampMatch ((dropExt nm).drop 20) = some (t, []) ∧
          (dropExt nm).take 20 = headTag) := by
  refine ⟨?_, ?_, ?_⟩
  · intro h
    simp [parse_timestamp, h]
  · intro h
    by_cases hp : (dropExt nm).take 20 = headTag
    · simp [parse_timestamp, hp, parseStamp, h]
    · simp [parse_timestamp, hp]
  · intro t ht
    by_cases hp : (dropExt nm).take 20 = headTag
    · rw [parse_timestamp, if_pos hp] at ht
      unfold parseStamp at ht
      rcases hsm : stampMatch ((dropExt nm).drop 20) with _ | ⟨t', rest⟩
      · rw [hsm] at ht
        simp at ht
      · rw [hsm] at ht
        rcases rest with _ | ⟨c, rest⟩
        · by_cases hv : validDate t' = true
          · simp only [hv, if_true] at ht
            have heq : t' = t := by simpa using ht
            subst heq
            exact ⟨hv, rfl, hp⟩
          · simp [hv] at ht
        · simp at ht
    · simp [parse_timestamp, hp] at ht

/-- Witness for `parse_timestamp_total`: a foreign name, a name with
an unparseable stamp, and a well-formed name. -/
theorem parse_timestamp_total_witness :
    parse_timestamp "notes.txt".toList = none ∧
      parse_timestamp "art-institut-backup-xxxx.tar.zst".toList = none ∧
      (validDate ⟨2025, 1, 2, 3, 4, 5⟩ = true ∧
        stampMatch ((dropExt "art-institut-backup-20250102T030405Z.tar.zst".toList).drop 20) =
          some (⟨2025, 1, 2, 3, 4, 5⟩, []) ∧
        (dropExt "art-institut-backup-20250102T030405Z.tar.zst".toList).take 20 = headTag) :=
  ⟨(parse_timestamp_total "notes.txt".toList).1 (by decide),
    (parse_timestamp_total "art-institut-backup-xxxx.tar.zst".toList).2.1 (by decide),
    (parse_timestamp_total "art-institut-backup-20250102T030405Z.tar.zst".toList).2.2
      ⟨2025, 1, 2, 3, 4, 5⟩ (by decide)⟩

/-! ### Listing lemmas -/

/-- Membership after a stable descending insertion. -/
lemma mem_insertDesc (e x : Name × DateTime) (l : List (Name × DateTime)) :
    x ∈ insertDesc e l ↔ x = e ∨ x ∈ l := by
  induction l with
  | nil => simp [insertDesc]
  | cons c cs ih =>
    rw [insertDesc]
    by_cases h : dtLt c.2 e.2 = true
    · simp [h]
    · simp only [h, if_false, Bool.false_eq_true, ite_false, List.mem_cons, ih]
      tauto

/-- The strict datetime order is asymmetric. -/
lemma dtLt_asymm (a b : DateTime) (h : dtLt a b = true) : dtLt b a = false := by
  simp only [dtLt, decide_eq_true_eq] at h
  simp only [dtLt, decide_eq_false_iff_not]
  omega

/-- If `c < e` and `x` is not above `c`, then `x` is not above `e`. -/
lemma dtLt_shift (c e x : DateTime) (h1 : dtLt c e = true)
    (h2 : dtLt c x = false) : dtLt e x = false := by
  simp only [dtLt, decide_eq_true_eq] at h1
  simp only [dtLt, decide_eq_false_iff_not] at h2 ⊢
  omega

/-- Insertion preserves the newest-first order. -/
lemma sortedDesc_insertDesc (e : Name × DateTime) (l : List (Name × DateTime))
    (hl : sortedDesc l) : sortedDesc (insertDesc e l) := by
  induction l with
  | nil => simp [insertDesc, sortedDesc]
  | cons c cs ih =>
    rcases List.pairwise_cons.mp hl with ⟨hc, hcs⟩
    rw [insertDesc]
    by_cases h : dtLt c.2 e.2 = true
    · rw [if_pos h]
      refine List.pairwise_cons.mpr ⟨?_, hl⟩
      intro x hx
      rcases List.mem_cons.mp hx with rfl | hx
      · exact dtLt_asymm _ _ h
      · exact dtLt_shift _ _ _ h (hc x hx)
    · rw [if_neg h]
      refine List.pairwise_cons.mpr ⟨?_, ih hcs⟩
      intro x hx
      rcases (mem_insertDesc e x cs).mp hx with rfl | hx
      · exact Bool.not_eq_true _ ▸ h
      · exact hc x hx

/-- Membership through the sorting fold. -/
lemma mem_foldl_insertDesc (x : Name × DateTime) (l acc : List (Name × DateTime)) :
    x ∈ l.foldl (fun a e => insertDesc e a) acc ↔ x ∈ acc ∨ x ∈ l := by
  induction l generalizing acc with
  | nil => simp
  | cons c cs ih =>
    simp only [List.foldl_cons, ih, mem_insertDesc, List.mem_cons]
    tauto

/-- Sorting preserves membership. -/
lemma mem_sortDesc (x : Name × DateTime) (l : List (Name × DateTime)) :
    x ∈ sortDesc l ↔ x ∈ l := by
  rw [sortDesc, mem_foldl_insertDesc]
  simp

/-- The sorting fold keeps the accumulator ordered. -/
lemma sortedDesc_foldl (l acc : List (Name × DateTime)) (hacc : sortedDesc acc) :
    sortedDesc (l.foldl (fun a e => insertDesc e a) acc) := by
  induction l generalizing acc with
  | nil => exact hacc
  | cons c cs ih => exact ih _ (sortedDesc_insertDesc c acc hacc)

/-- The output of the sort is ordered newest-first. -/
lemma sortedDesc_sortDesc (l : List (Name × DateTime)) : sortedDesc (sortDesc l) :=
  sortedDesc_foldl l [] (by simp [sortedDesc])

/-- Membership in the output of `list_backups`. -/
lemma mem_list_backups (names : List Name) (e : Name × DateTime) :
    e ∈ list_backups names ↔
      e.1 ∈ names ∧ globOk e.1 = true ∧ parse_timestamp e.1 = some e.2 := by
  rw [list_backups, mem_sortDesc, List.mem_filterMap]
  constructor
  · rintro ⟨nm, hnm, hf⟩
    by_cases hg : globOk nm = true
    · rw [if_pos hg] at hf
      rcases hparse : parse_timestamp nm with _ | t
      · rw [hparse] at hf
        simp at hf
      · rw [hparse] at hf
        have hf2 : (nm, t) = e := Option.some.inj hf
        refine ⟨?_, ?_, ?_⟩
        · rw [← hf2]
          exact hnm
        · rw [← hf2]
          exact hg
        · rw [← hf2]
          exact hparse
    · rw [if_neg hg] at hf
      simp at hf
  · rintro ⟨hnm, hg, hparse⟩
    exact ⟨e.1, hnm, by rw [if_pos hg, hparse]; rfl⟩

/-- C8: a file whose name does not match the fixed pattern (glob miss
or unparseable timestamp) never appears in the output of
`list_backups` — which is ordered newest-first — and pruning only ever
deletes paths taken from its input listing. -/
theorem store_skips_nonmatching (names : List Name) (nm : Name) :
    ((globOk nm = false ∨ parse_timestamp nm = none) →
        ∀ e ∈ list_backups names, e.1 ≠ nm) ∧
      sortedDesc (list_backups names) ∧
      (∀ (bs : List BackupFile) (now : Int) (p : String),
        p ∈ removedPaths now bs → ∃ b ∈ bs, b.path = p) := by
  refine ⟨?_, sortedDesc_sortDesc _, ?_⟩
  · intro hbad e hmem heq
    rcases (mem_list_backups names e).mp hmem with ⟨_, hg, hparse⟩
    rw [heq] at hg hparse
    rcases hbad with hbad | hbad
    · rw [hbad] at hg
      simp at hg
    · rw [hbad] at hparse
      simp at hparse
  · intro bs now p hp
    rcases (mem_removedPaths now bs p).mp hp with ⟨c, hc, hcp, _⟩
    exact ⟨c, hc, hcp⟩

/-- Witness for `store_skips_nonmatching`: a store with one archive
and one foreign file, plus a concrete pruning run. -/
theorem store_skips_nonmatching_witness :
    (∀ e ∈ list_backups
        ["art-institut-backup-20250101T000000Z.tar.zst".toList, "notes.txt".toList],
      e.1 ≠ "notes.txt".toList) ∧
      sortedDesc (list_backups
        ["art-institut-backup-20250101T000000Z.tar.zst".toList, "notes.txt".toList]) ∧
      (∃ b ∈ [(⟨"a", 100⟩ : BackupFile), ⟨"b", 50⟩], b.path = "b") :=
  ⟨(store_skips_nonmatching
      ["art-institut-backup-20250101T000000Z.tar.zst".toList, "notes.txt".toList]
      "notes.txt".toList).1 (Or.inl (by decide)),
    (store_skips_nonmatching
      ["art-institut-backup-20250101T000000Z.tar.zst".toList, "notes.txt".toList]
      "notes.txt".toList).2.1,
    (store_skips_nonmatching
      ["art-institut-backup-20250101T000000Z.tar.zst".toList, "notes.txt".toList]
      "notes.txt".toList).2.2 [⟨"a", 100⟩, ⟨"b", 50⟩] 200 "b" (by decide)⟩

/-! ## Staging coordinator (`create_backup`, `backup.py:145-180`) and
integrity verifier (`check_backup`, `backup.py:263-274`)

`create_backup` is modelled as a function on an explicit state of the
store directory (`BACKUP_ROOT`): the archive files and the staging
directories present in it. An oracle says which external commands
succeed. Faithful to the source:

* `tempfile.mkdtemp(prefix=..., dir=BACKUP_ROOT)` creates a fresh
  staging directory (hypothesis: its name is not already present);
* the capture adapters write only inside the staging directory, so
  their outputs are not store members; the first failing adapter
  aborts the `try` block;
* the packaging step runs `tar --zstd -cf <BACKUP_ROOT>/<final name>`:
  `tar -cf` creates its destination file up front and then streams
  entries into it, so the file exists under its final, pattern-matching
  name even when tar then exits non-zero — and `create_backup` has no
  handler that would unlink `backup_path` on such a failure;
* the `finally` block removes the staging directory
  (`shutil.rmtree(..., ignore_errors=True)`) on every exit path. -/

/-- One external command of `create_backup`. -/
inductive Step where
  | kimaiDb
  | nextcloudDb
  | volume (label : String)
  | masterKey
  | repoTree
  | packaging
deriving DecidableEq, Repr

/-- Labels of `VOLUMES` (`backup.py:47-54`), in iteration order. -/
def VOLUME_LABELS : List String :=
  ["kimai_db_data", "kimai_public", "kimai_var",
   "nextcloud_data", "nextcloud_db_data", "redis_data"]

/-- The capture adapters in the order `create_backup` drives them:
databases, then volumes, then secrets, then the repository tree. -/
def adapterSteps : List Step :=
  [Step.kimaiDb, Step.nextcloudDb] ++ VOLUME_LABELS.map Step.volume ++
    [Step.masterKey, Step.repoTree]

/-- Contents of the store directory `BACKUP_ROOT`. -/
structure Store where
  archives : List Name
  staging : List Name
deriving DecidableEq, Repr

/-- Create a file under a name, truncating an existing one
(`tar -cf`). -/
def addFile (n : Name) (l : List Name) : List Name :=
  if n ∈ l then l else n :: l

/-- `create_backup` over the store state: result (`Some` final path on
success, `none` when an exception propagates) and final store. -/
def create_backup (oracle : Step → Bool) (ts fresh : Name) (s : Store) :
    Option Name × Store :=
  let s1 : Store := ⟨s.archives, fresh :: s.staging⟩
  if adapterSteps.all oracle then
    let s2 : Store := ⟨addFile (archiveFileName ts) s1.archives, s1.staging⟩
    let s3 : Store := ⟨s2.archives, s2.staging.filter fun n => decide (n ≠ fresh)⟩
    if oracle Step.packaging then (some (archiveFileName ts), s3)
    else (none, s3)
  else
    (none, ⟨s1.archives, s1.staging.filter fun n => decide (n ≠ fresh)⟩)

/-- `required` in `check_backup` (`backup.py:271`). -/
def requiredItems : List String :=
  ["databases/kimai.sql", "databases/nextcloud.sql", "files_encryption.tar.gz"]

/-- `missing = [item for item in required if item not in files]`. -/
def missingItems (files : List String) : List String :=
  requiredItems.filter fun r => decide (r ∉ files)

/-- `check_backup` on a structurally readable archive whose manifest
lists `files`: `raise SystemExit` exactly when a required item is
missing. -/
def check_backup (files : List String) : Except (List String) Unit :=
  if missingItems files = [] then Except.ok () else Except.error (missingItems files)

/-- `check_backup` with the store state threaded through: the
verifier only reads the archive and extracts the manifest into a
temporary directory outside the store, so the store is passed
through untouched. -/
def check_backup_run (s : Store) (files : List String) :
    Except (List String) Unit × Store :=
  (check_backup files, s)

/-! ### Claim theorems about `create_backup` and `check_backup` -/

/-- Removing the fresh staging directory restores the staging set. -/
lemma staging_cleanup (fresh : Name) (l : List Name) (h : fresh ∉ l) :
    (fresh :: l).filter (fun n => decide (n ≠ fresh)) = l := by
  induction l with
  | nil => simp
  | cons a l ih =>
    simp only [List.mem_cons, not_or] at h
    have ha : a ≠ fresh := fun hq => h.1 hq.symm
    have hrec := ih h.2
    simp only [List.filter_cons] at hrec ⊢
    simp_all

/-- C5: on every exit path of `create_backup` — normal return, a
capture-adapter failure, or a packaging failure — the scratch
directory allocated at the start is removed, leaving the staging set
as it was (the `finally` clause runs `shutil.rmtree` unconditionally;
`mkdtemp` guarantees the name is fresh). -/
theorem create_backup_scratch_removed (oracle : Step → Bool) (ts fresh : Name)
    (s : Store) (hfresh : fresh ∉ s.staging) :
    ((create_backup oracle ts fresh s).2).staging = s.staging := by
  rw [create_backup]
  by_cases hall : adapterSteps.all oracle = true
  · rw [if_pos hall]
    by_cases hpack : oracle Step.packaging = true
    · rw [if_pos hpack]
      exact staging_cleanup fresh s.staging hfresh
    · rw [if_neg hpack]
      exact staging_cleanup fresh s.staging hfresh
  · rw [if_neg hall]
    exact staging_cleanup fresh s.staging hfresh

/-- Witness for `create_backup_scratch_removed`: a failing run on an
empty store leaves no staging directory behind. -/
theorem create_backup_scratch_removed_witness :
    (("staging-x".toList : Name) ∉ (⟨[], []⟩ : Store).staging) ∧
      ((create_backup (fun _ => false) "20250101T000000Z".toList
          "staging-x".toList ⟨[], []⟩).2).staging = (⟨[], []⟩ : Store).staging :=
  ⟨by decide,
    create_backup_scratch_removed (fun _ => false) "20250101T000000Z".toList
      "staging-x".toList ⟨[], []⟩ (by decide)⟩

/-- C1 counterexample: a run in which every capture adapter succeeds
and the packaging step fails returns an error, yet a file matching
the archive naming pattern — the half-written packaging target under
its final name — remains in the store: `create_backup` passes the
final path to `tar -cf` directly and removes only the staging
directory on failure. -/
theorem create_backup_packaging_partial :
    (create_backup
        (fun st => match st with | Step.packaging => false | _ => true)
        "20250101T000000Z".toList "staging-a".toList ⟨[], []⟩).1 = none ∧
      ((create_backup
          (fun st => match st with | Step.packaging => false | _ => true)
          "20250101T000000Z".toList "staging-a".toList ⟨[], []⟩).2).archives =
        [archiveFileName "20250101T000000Z".toList] ∧
      globOk (archiveFileName "20250101T000000Z".toList) = true :=
  ⟨rfl, rfl, by decide⟩

/-- C1 (amended): if any capture adapter fails, no new file appears in
the store (and the result is an error); if all adapters and the
packaging step succeed, exactly the one new archive under the final
name appears; if the packaging step itself fails, the file under the
final archive name has already been created and remains. -/
theorem create_backup_atomicity (oracle : Step → Bool) (ts fresh : Name)
    (s : Store) :
    ((∃ st ∈ adapterSteps, oracle st = false) →
        (create_backup oracle ts fresh s).1 = none ∧
          ((create_backup oracle ts fresh s).2).archives = s.archives) ∧
      ((∀ st ∈ adapterSteps, oracle st = true) → oracle Step.packaging = true →
        (create_backup oracle ts fresh s).1 = some (archiveFileName ts) ∧
          ((create_backup oracle ts fresh s).2).archives =
            addFile (archiveFileName ts) s.archives) ∧
      ((∀ st ∈ adapterSteps, oracle st = true) → oracle Step.packaging = false →
        (create_backup oracle ts fresh s).1 = none ∧
          ((create_backup oracle ts fresh s).2).archives =
            addFile (archiveFileName ts) s.archives) := by
  refine ⟨?_, ?_, ?_⟩
  · rintro ⟨st, hst, hfail⟩
    have hall : adapterSteps.all oracle = false := by
      rcases hcase : adapterSteps.all oracle with _ | _
      · rfl
      · have := List.all_eq_true.mp hcase st hst
        rw [hfail] at this
        exact absurd this (by simp)
    simp [create_backup, hall]
  · intro hall hpack
    have h : adapterSteps.all oracle = true := List.all_eq_true.mpr hall
    simp [create_backup, h, hpack]
  · intro hall hpack
    have h : adapterSteps.all oracle = true := List.all_eq_true.mpr hall
    simp [create_backup, h, hpack]

/-- Witness for `create_backup_atomicity`: a run with a failing
database dump leaves the empty store unchanged; a fully successful
run adds exactly the one archive. -/
theorem create_backup_atomicity_witness :
    ((create_backup
        (fun st => match st with | Step.kimaiDb => false | _ => true)
        "20250101T000000Z".toList "staging-a".toList ⟨[], []⟩).1 = none ∧
      ((create_backup
          (fun st => match st with | Step.kimaiDb => false | _ => true)
          "20250101T000000Z".toList "staging-a".toList ⟨[], []⟩).2).archives = []) ∧
      ((create_backup (fun _ => true)
          "20250101T000000Z".toList "staging-a".toList ⟨[], []⟩).1 =
        some (archiveFileName "20250101T000000Z".toList) ∧
        ((create_backup (fun _ => true)
            "20250101T000000Z".toList "staging-a".toList ⟨[], []⟩).2).archives =
          addFile (archiveFileName "20250101T000000Z".toList) []) :=
  ⟨(create_backup_atomicity
      (fun st => match st with | Step.kimaiDb => false | _ => true)
      "20250101T000000Z".toList "staging-a".toList ⟨[], []⟩).1
      ⟨Step.kimaiDb, by decide, rfl⟩,
    (create_backup_atomicity (fun _ => true)
      "20250101T000000Z".toList "staging-a".toList ⟨[], []⟩).2.1
      (fun _ _ => rfl) rfl⟩

/-- C6: for every structurally readable archive, verification fails —
reporting exactly the missing items — if and only if some required
item (the two database dumps and the secrets capture) is absent from
the manifest file list, and the store is left untouched either way. -/
theorem check_backup_missing_required (files : List String) (s : Store) :
    ((∃ e, check_backup files = Except.error e) ↔
        ∃ r ∈ requiredItems, r ∉ files) ∧
      (∀ e, check_backup files = Except.error e →
        ∀ x, x ∈ e ↔ x ∈ requiredItems ∧ x ∉ files) ∧
      (check_backup_run s files).2 = s := by
  refine ⟨?_, ?_, rfl⟩
  · constructor
    · rintro ⟨e, he⟩
      by_cases hm : missingItems files = []
      · simp [check_backup, hm] at he
      · rcases List.exists_mem_of_ne_nil _ hm with ⟨r, hr⟩
        rcases List.mem_filter.mp hr with ⟨hreq, hdec⟩
        exact ⟨r, hreq, by simpa using hdec⟩
    · rintro ⟨r, hreq, hnot⟩
      have hmem : r ∈ missingItems files :=
        List.mem_filter.mpr ⟨hreq, by simpa using hnot⟩
      have hne : missingItems files ≠ [] := by
        intro h
        rw [h] at hmem
        simp at hmem
      exact ⟨missingItems files, by simp [check_backup, hne]⟩
  · intro e he x
    by_cases hm : missingItems files = []
    · simp [check_backup, hm] at he
    · have he2 : missingItems files = e := by
        have := he
        rw [check_backup, if_neg hm] at this
        exact Except.error.inj this
      rw [← he2, missingItems, List.mem_filter]
      simp

/-- Witness for `check_backup_missing_required`: a manifest missing
the secrets capture (the spec's Scenario D) fails verification,
reporting exactly that item, with the store unchanged. -/
theorem check_backup_missing_required_witness :
    (∃ e, check_backup ["databases/kimai.sql", "databases/nextcloud.sql"] =
        Except.error e) ∧
      (∀ x, x ∈ ["files_encryption.tar.gz"] ↔
        x ∈ requiredItems ∧
          x ∉ ["databases/kimai.sql", "databases/nextcloud.sql"]) ∧
      (check_backup_run ⟨[], []⟩
        ["databases/kimai.sql", "databases/nextcloud.sql"]).2 = ⟨[], []⟩ :=
  ⟨(check_backup_missing_required
      ["databases/kimai.sql", "databases/nextcloud.sql"] ⟨[], []⟩).1.mpr
      ⟨"files_encryption.tar.gz", by decide, by decide⟩,
    (check_backup_missing_required
      ["databases/kimai.sql", "databases/nextcloud.sql"] ⟨[], []⟩).2.1
      ["files_encryption.tar.gz"] rfl,
    (check_backup_missing_required
      ["databases/kimai.sql", "databases/nextcloud.sql"] ⟨[], []⟩).2.2⟩

end Backup
